import Mathlib

/-!
Verification of the `madhatter` middleware-chaining library.

The Go source (`madhatter.go`) composes context-aware HTTP middleware:
a `Chain` holds an ordered list of `Constructor`s (`func(Handler) Handler`)
plus a `finalize` function; `Then` folds the constructors from last to first
around a terminal handler and wraps the result in a root boundary that
creates and cancels a per-request context.

Shallow embedding, behavioral layer:
* the mutable runtime state relevant to the library is the context
  machinery (`CtxWorld`: a fresh-id counter and the set of cancelled
  context ids);
* a response writer is modelled as the list of byte chunks written to it;
* a handler call may terminate normally or by an unwinding panic, recorded
  in an `Outcome`;
* a Go `Handler` interface value is denoted by its `ServeHTTP` behavior,
  and a possibly-nil interface value by an `Option` of that.

A second layer further below models Go slice backing storage (heap of
backing arrays) to settle the allocation/aliasing claims about `New` and
`Append`.
-/

set_option autoImplicit false

/-- A request, opaque to this library (only passed through). -/
abbrev Request := String

/-- A response writer, modelled by the chunks written to it so far
(the response sink is the only observable a handler is required to have). -/
abbrev ResponseWriter := List String

/-- Ambient state of the context machinery: the next fresh context id and
the ids whose cancel function has been called. -/
structure CtxWorld where
  nextId : Nat
  cancelled : List Nat
deriving Repr, DecidableEq

/-- Outcome of a handler call: `none` is a normal return, `some msg` is an
unwinding panic carrying its payload. -/
abbrev Outcome := Option String

/-- A `context.Context` value: the background context, a cancellable child
(`context.WithCancel`), or a child carrying one key/value pair
(`context.WithValue`). -/
inductive Context where
  | background : Context
  | withCancel (id : Nat) (parent : Context) : Context
  | withValue (key : String) (val : String) (parent : Context) : Context
deriving Repr, DecidableEq

/-- Lookup of `ctx.Value(key)`: a `withValue` node answers for its key,
everything else defers to the parent; the background context holds no data. -/
def Context.value : Context → String → Option String
  | .background, _ => none
  | .withCancel _ p, k => p.value k
  | .withValue key v p, k => if k = key then some v else p.value k

/-- Whether a context is observably cancelled in a given world: a
cancellable node is cancelled once its id is, or once its parent is;
value nodes inherit from the parent; background is never cancelled. -/
def Context.isCancelled : Context → CtxWorld → Bool
  | .background, _ => false
  | .withCancel id p, s => decide (id ∈ s.cancelled) || p.isCancelled s
  | .withValue _ _ p, s => p.isCancelled s

/-- The `HandlerFunc` type: `func(context.Context, http.ResponseWriter,
*http.Request)`.  A call reads the context, the writer and the request,
and produces the updated writer, the updated context world and an outcome. -/
abbrev HandlerFunc :=
  Context → ResponseWriter → Request → CtxWorld → ResponseWriter × CtxWorld × Outcome

/-- A `Handler` interface value is denoted by its `ServeHTTP` behavior;
a possibly-nil interface value is an `Option Handler` at the use sites. -/
abbrev Handler := HandlerFunc

/-- `func (f HandlerFunc) ServeHTTP(ctx, w, r) { f(ctx, w, r) }`: the
adapter letting a plain function satisfy the `Handler` capability. -/
def HandlerFunc.ServeHTTP (f : HandlerFunc) : Handler := f

/-- An `http.Handler` (transport-layer calling convention): no context
argument; the context world is still threaded as ambient state. -/
abbrev HttpHandler :=
  ResponseWriter → Request → CtxWorld → ResponseWriter × CtxWorld × Outcome

/-- A `Constructor` for a piece of middleware: `func(Handler) Handler`. -/
abbrev Constructor := Handler → Handler

/-- `Chain` holds the constructor sequence and the finalize function
`func(Handler) http.Handler`. -/
structure Chain where
  constructors : List Constructor
  finalize : Handler → HttpHandler

/-- `createRootHandler`: wraps a `Handler` into an `http.Handler` that, per
request, derives a fresh cancellable context from `context.Background()`,
defers its cancellation, and invokes the wrapped handler with
`(ctx, w, r)`.  The deferred cancel runs on every exit path, so the
created id is added to the cancelled set whatever the outcome. -/
def createRootHandler (h : Handler) : HttpHandler := fun w r s =>
  let ctx := Context.withCancel s.nextId Context.background
  let s1 : CtxWorld := { nextId := s.nextId + 1, cancelled := s.cancelled }
  let res := h ctx w r s1
  (res.1, { nextId := res.2.1.nextId, cancelled := s.nextId :: res.2.1.cancelled }, res.2.2)

/-- Model of the ambient default request multiplexer
(`http.DefaultServeMux`), an external collaborator: with no registered
routes it writes a plain-text 404 response and returns normally. -/
def defaultServeMux : HttpHandler := fun w _r s =>
  (w ++ ["404 page not found"], s, none)

/-- `adaptFinal`: adapts an `http.Handler` to the context-aware `Handler`
capability by discarding the context argument on each call. -/
def adaptFinal (h : HttpHandler) : Handler :=
  HandlerFunc.ServeHTTP (fun _ctx w r s => h w r s)

/-- `New` creates a new `Chain`: its constructor sequence is a copy of the
given list (`append` to a nil slice) and its finalize function is
`createRootHandler`. -/
def New (constructors : List Constructor) : Chain :=
  { constructors := constructors, finalize := createRootHandler }

/-- `Then` chains the middleware around the terminal handler and applies
the finalize function.  `nil` (`none`) is treated as
`adaptFinal(http.DefaultServeMux)`.  The Go loop runs `i` from
`len-1` down to `0` doing `final = constructors[i](final)`, which is
exactly a right fold of application over the sequence. -/
def Chain.Then (c : Chain) (h : Option Handler) : HttpHandler :=
  c.finalize
    (c.constructors.foldr (fun con acc => con acc)
      (match h with
        | some h0 => h0
        | none => adaptFinal defaultServeMux))

/-- `ThenFunc` works like `Then` but takes a (possibly nil) `HandlerFunc`,
converting a non-nil one through the `HandlerFunc` adapter. -/
def Chain.ThenFunc (c : Chain) (fn : Option HandlerFunc) : HttpHandler :=
  match fn with
  | none => c.Then none
  | some f => c.Then (some (HandlerFunc.ServeHTTP f))

/-- `Append` extends a `Chain`: it concatenates the receiver's sequence
with the new constructors into a fresh backing sequence and passes it
through `New`. -/
def Chain.Append (c : Chain) (constructors : List Constructor) : Chain :=
  New (c.constructors ++ constructors)

/-- Manual composition `c1(c2(...cn(h)))`: the first constructor is the
outermost wrapper, the last the innermost. -/
def manualCompose : List Constructor → Handler → Handler
  | [], h => h
  | c :: cs, h => c (manualCompose cs h)

theorem foldr_eq_manualCompose (cs : List Constructor) (h : Handler) :
    cs.foldr (fun con acc => con acc) h = manualCompose cs h := by
  induction cs with
  | nil => rfl
  | cons c cs ih => simp [manualCompose, ih]

/-- C1: for every constructor sequence `[c1,...,cn]` and non-nil terminal
handler `h`, `New(c1,...,cn).Then(h)` equals `createRootHandler` applied to
the manual composition `c1(c2(...cn(h)))`: the first constructor is the
outermost wrapper, the last the innermost. -/
theorem New_Then_eq_manualCompose (cs : List Constructor) (h : Handler) :
    (New cs).Then (some h) = createRootHandler (manualCompose cs h) := by
  show createRootHandler (cs.foldr (fun con acc => con acc) h)
      = createRootHandler (manualCompose cs h)
  rw [foldr_eq_manualCompose]

/-- C2: for every request handled by the root boundary, a fresh cancellable
context derived from the background context is created; the wrapped handler
is invoked with it (its writes and its outcome, normal or panic, are
passed through unchanged), and that context is observably cancelled in the
resulting world on every exit path. -/
theorem createRootHandler_cancels (h : Handler) (w : ResponseWriter) (r : Request)
    (s : CtxWorld) :
    Context.isCancelled (Context.withCancel s.nextId Context.background)
      (createRootHandler h w r s).2.1 = true
    ∧ (createRootHandler h w r s).1
        = (h (Context.withCancel s.nextId Context.background) w r
            ⟨s.nextId + 1, s.cancelled⟩).1
    ∧ (createRootHandler h w r s).2.2
        = (h (Context.withCancel s.nextId Context.background) w r
            ⟨s.nextId + 1, s.cancelled⟩).2.2
    ∧ (createRootHandler h w r s).2.1.cancelled
        = s.nextId
          :: (h (Context.withCancel s.nextId Context.background) w r
               ⟨s.nextId + 1, s.cancelled⟩).2.1.cancelled := by
  refine ⟨?_, rfl, rfl, rfl⟩
  simp [createRootHandler, Context.isCancelled]

/-- C3: for every chain, `Then` with a nil terminal handler behaves
identically to `Then` with `adaptFinal(http.DefaultServeMux)` as terminal
handler, and that adapter (like the adapter around any transport handler)
ignores the context argument on each call. -/
theorem Then_nil_eq_defaultServeMux (c : Chain) :
    c.Then none = c.Then (some (adaptFinal defaultServeMux))
    ∧ ∀ (g : HttpHandler) (ctx1 ctx2 : Context) (w : ResponseWriter) (r : Request)
        (s : CtxWorld), adaptFinal g ctx1 w r s = adaptFinal g ctx2 w r s :=
  ⟨rfl, fun _ _ _ _ _ _ => rfl⟩

/-- C8: `ThenFunc` on a non-nil function equals `Then` on the
`HandlerFunc`-adapted function, and `ThenFunc` on nil equals `Then` on
nil. -/
theorem ThenFunc_eq_Then (c : Chain) (fn : HandlerFunc) :
    c.ThenFunc (some fn) = c.Then (some (HandlerFunc.ServeHTTP fn))
    ∧ c.ThenFunc none = c.Then none :=
  ⟨rfl, rfl⟩

/-- C7: the finalize function is fixed at construction: every chain built
by `New` carries `createRootHandler`, and `Append` on any such chain
yields a chain with the same finalize function as the receiver (it goes
through the same construction path as `New`, never a caller-supplied
finalizer). -/
theorem Append_preserves_finalize (c : Chain) (xs ys : List Constructor)
    (hc : c.finalize = createRootHandler) :
    (New ys).finalize = createRootHandler ∧ (c.Append xs).finalize = c.finalize := by
  exact ⟨rfl, by rw [hc]; rfl⟩

theorem Append_preserves_finalize_witness :
    (New []).finalize = createRootHandler
    ∧ ((New []).finalize = createRootHandler
        ∧ ((New []).Append []).finalize = (New []).finalize) :=
  ⟨rfl, Append_preserves_finalize (New []) [] [] rfl⟩

/-- C9: in any well-formed world (no cancelled id is at or above the fresh
counter), the context that `createRootHandler` passes to the wrapped
handler is a fresh cancellable child of the background context: at the
moment of invocation it is not cancelled, it carries no key/value data,
and `createRootHandler` invokes the handler with exactly that context. -/
theorem rootContext_fresh (h : Handler) (w : ResponseWriter) (r : Request)
    (s : CtxWorld) (hw : ∀ i ∈ s.cancelled, i < s.nextId) :
    Context.isCancelled (Context.withCancel s.nextId Context.background)
      ⟨s.nextId + 1, s.cancelled⟩ = false
    ∧ (∀ k, Context.value (Context.withCancel s.nextId Context.background) k = none)
    ∧ createRootHandler h w r s
        = ((h (Context.withCancel s.nextId Context.background) w r
             ⟨s.nextId + 1, s.cancelled⟩).1,
           ⟨(h (Context.withCancel s.nextId Context.background) w r
              ⟨s.nextId + 1, s.cancelled⟩).2.1.nextId,
            s.nextId
              :: (h (Context.withCancel s.nextId Context.background) w r
                   ⟨s.nextId + 1, s.cancelled⟩).2.1.cancelled⟩,
           (h (Context.withCancel s.nextId Context.background) w r
             ⟨s.nextId + 1, s.cancelled⟩).2.2) := by
  refine ⟨?_, fun k => rfl, rfl⟩
  simp only [Context.isCancelled, Bool.or_false, decide_eq_false_iff_not]
  intro hmem
  exact absurd (hw _ hmem) (lt_irrefl _)

theorem rootContext_fresh_witness :
    (∀ i ∈ ([] : List Nat), i < 0)
    ∧ (Context.isCancelled (Context.withCancel (0 : Nat) Context.background)
        ⟨0 + 1, []⟩ = false
      ∧ (∀ k, Context.value (Context.withCancel (0 : Nat) Context.background) k = none)
      ∧ createRootHandler (fun _ctx w _r s => (w, s, none)) [] "req" ⟨0, []⟩
          = (((fun (_ctx : Context) (w : ResponseWriter) (_r : Request) (s : CtxWorld) =>
                (w, s, (none : Outcome))) (Context.withCancel 0 Context.background) [] "req"
                ⟨0 + 1, []⟩).1,
             ⟨((fun (_ctx : Context) (w : ResponseWriter) (_r : Request) (s : CtxWorld) =>
                (w, s, (none : Outcome))) (Context.withCancel 0 Context.background) [] "req"
                ⟨0 + 1, []⟩).2.1.nextId,
              0 :: ((fun (_ctx : Context) (w : ResponseWriter) (_r : Request) (s : CtxWorld) =>
                (w, s, (none : Outcome))) (Context.withCancel 0 Context.background) [] "req"
                ⟨0 + 1, []⟩).2.1.cancelled⟩,
             ((fun (_ctx : Context) (w : ResponseWriter) (_r : Request) (s : CtxWorld) =>
                (w, s, (none : Outcome))) (Context.withCancel 0 Context.background) [] "req"
                ⟨0 + 1, []⟩).2.2)) :=
  ⟨fun i hi => absurd hi (List.not_mem_nil i),
   rootContext_fresh (fun _ctx w _r s => (w, s, none)) [] "req" ⟨0, []⟩
     (fun i hi => absurd hi (List.not_mem_nil i))⟩

/-!
Memory layer: Go slice semantics.

A Go slice value is a header `(arr, off, len, cap)` pointing into a heap
of backing arrays.  `append` writes in place when capacity suffices and
otherwise allocates a fresh backing array; `make` allocates a fresh
zeroed array; `copy` overwrites a prefix of the destination.  This layer
re-embeds `New` and `Append` at that level (`newGo`, `appendGo`) to settle
the claims about fresh allocation and absence of aliasing.  Array id `0`
is reserved for the nil slice and holds the empty array in a well-formed
heap.
-/

/-- A Go slice header: backing array id, offset, length and capacity. -/
structure GoSlice where
  arr : Nat
  off : Nat
  len : Nat
  cap : Nat
deriving Repr, DecidableEq

/-- The nil slice: no backing array (id 0), zero length and capacity. -/
def nilSlice : GoSlice := ⟨0, 0, 0, 0⟩

/-- A heap of backing arrays: ids below `next` are allocated. -/
structure Heap (α : Type) where
  next : Nat
  store : Nat → List α

/-- The elements a slice denotes: a window of its backing array. -/
def Heap.read {α : Type} (h : Heap α) (s : GoSlice) : List α :=
  ((h.store s.arr).drop s.off).take s.len

/-- Overwrite one backing array wholesale. -/
def Heap.write {α : Type} (h : Heap α) (a : Nat) (l : List α) : Heap α :=
  { next := h.next, store := fun i => if i = a then l else h.store i }

/-- Allocate a fresh backing array holding `xs`; returns its id. -/
def Heap.alloc {α : Type} (h : Heap α) (xs : List α) : Heap α × Nat :=
  ({ next := h.next + 1, store := fun i => if i = h.next then xs else h.store i }, h.next)

/-- A slice header is valid in a heap: allocated array, window in bounds. -/
def Heap.validS {α : Type} (h : Heap α) (s : GoSlice) : Prop :=
  s.arr < h.next ∧ s.off + s.cap ≤ (h.store s.arr).length ∧ s.len ≤ s.cap

/-- Element-wise overwrite of `l` starting at index `off` with `xs`
(the elementary copy loop behind Go's `copy`). -/
def writeRange {α : Type} : List α → Nat → List α → List α
  | l, _, [] => l
  | l, off, x :: xs => writeRange (l.set off x) (off + 1) xs

/-- `make([]T, n)`: a fresh zeroed backing array of length `n`, returned
as a slice with capacity exactly `n`. -/
def goMake {α : Type} [Inhabited α] (h : Heap α) (n : Nat) : Heap α × GoSlice :=
  ((h.alloc (List.replicate n default)).1, ⟨(h.alloc (List.replicate n default)).2, 0, n, n⟩)

/-- `copy(dst, src)`: overwrite the first `min(len(dst), len(src))`
elements of `dst` with those of `src`. -/
def goCopy {α : Type} (h : Heap α) (dst src : GoSlice) : Heap α :=
  h.write dst.arr (writeRange (h.store dst.arr) dst.off ((h.read src).take dst.len))

/-- `append(s, xs...)`: write in place when the capacity suffices,
otherwise allocate a fresh backing array holding the combined elements. -/
def goAppend {α : Type} (h : Heap α) (s : GoSlice) (xs : List α) : Heap α × GoSlice :=
  if s.len + xs.length ≤ s.cap then
    (h.write s.arr (writeRange (h.store s.arr) (s.off + s.len) xs),
     ⟨s.arr, s.off, s.len + xs.length, s.cap⟩)
  else
    ((h.alloc (h.read s ++ xs)).1,
     ⟨(h.alloc (h.read s ++ xs)).2, 0, s.len + xs.length, s.len + xs.length⟩)

/-- `s[i:]`: reslice from index `i`. -/
def GoSlice.sliceFrom (s : GoSlice) (i : Nat) : GoSlice :=
  ⟨s.arr, s.off + i, s.len - i, s.cap - i⟩

instance : Inhabited CtxWorld := ⟨⟨0, []⟩⟩

/-- A `Chain` at the memory level: the constructor sequence is a slice
into a heap of `Constructor` arrays. -/
structure ChainG where
  constructors : GoSlice
  finalize : Handler → HttpHandler

/-- `New` at the memory level: the variadic parameter is the caller's
slice; `append(nil, constructors...)` reads its elements and (when any)
copies them into a fresh backing array; the finalize function is
`createRootHandler`. -/
def newGo (h : Heap Constructor) (constructors : GoSlice) : Heap Constructor × ChainG :=
  ((goAppend h nilSlice (h.read constructors)).1,
   ⟨(goAppend h nilSlice (h.read constructors)).2, createRootHandler⟩)

/-- The fresh slice `newCons := make([]Constructor, len1+len2)` made by
`Append`. -/
def appendMade (h : Heap Constructor) (c : ChainG) (constructors : GoSlice) :
    Heap Constructor × GoSlice :=
  goMake h (c.constructors.len + constructors.len)

/-- The heap after `Append`'s first copy:
`copy(newCons, c.constructors)`. -/
def appendCopy1 (h : Heap Constructor) (c : ChainG) (constructors : GoSlice) :
    Heap Constructor :=
  goCopy (appendMade h c constructors).1 (appendMade h c constructors).2 c.constructors

/-- The heap after `Append`'s second copy:
`copy(newCons[len1:], constructors)`. -/
def appendCopied (h : Heap Constructor) (c : ChainG) (constructors : GoSlice) :
    Heap Constructor :=
  goCopy (appendCopy1 h c constructors)
    ((appendMade h c constructors).2.sliceFrom c.constructors.len)
    constructors

/-- `Append` at the memory level: `make` a fresh slice of the combined
length, `copy` the receiver's elements, `copy` the new ones after them,
then pass the fresh slice through `New`. -/
def appendGo (h : Heap Constructor) (c : ChainG) (constructors : GoSlice) :
    Heap Constructor × ChainG :=
  newGo (appendCopied h c constructors) (appendMade h c constructors).2

theorem writeRange_nil {α : Type} (l : List α) (off : Nat) : writeRange l off [] = l := rfl

theorem length_writeRange {α : Type} (xs : List α) :
    ∀ (l : List α) (off : Nat), (writeRange l off xs).length = l.length := by
  induction xs with
  | nil => intro l off; rfl
  | cons x xs ih => intro l off; rw [writeRange, ih, List.length_set]

theorem set_append_length {α : Type} (pre : List α) (x r : α) (rs : List α) :
    (pre ++ r :: rs).set pre.length x = pre ++ x :: rs := by
  induction pre with
  | nil => rfl
  | cons p pre ih => simp [List.set, ih]

theorem writeRange_append {α : Type} (xs : List α) :
    ∀ (pre rest : List α), xs.length ≤ rest.length →
      writeRange (pre ++ rest) pre.length xs = pre ++ xs ++ rest.drop xs.length := by
  induction xs with
  | nil => intro pre rest _; simp [writeRange]
  | cons x xs ih =>
    intro pre rest hlen
    cases rest with
    | nil => simp at hlen
    | cons r rs =>
      rw [writeRange, set_append_length]
      have h2 : writeRange ((pre ++ [x]) ++ rs) (pre ++ [x]).length xs
          = (pre ++ [x]) ++ xs ++ rs.drop xs.length := by
        apply ih
        simpa using Nat.le_of_succ_le_succ hlen
      simp only [List.length_append, List.length_cons, List.length_nil] at h2
      have h3 : pre ++ x :: rs = (pre ++ [x]) ++ rs := by simp
      rw [h3]
      rw [show pre.length + 1 = pre.length + (0 + 1) from rfl] at h2
      rw [h2]
      simp

theorem Heap.read_len {α : Type} (h : Heap α) (s : GoSlice) (hs : h.validS s) :
    (h.read s).length = s.len := by
  obtain ⟨_, h2, h3⟩ := hs
  simp only [Heap.read, List.length_take, List.length_drop]
  exact Nat.min_eq_left (by omega)

theorem Heap.read_len_zero {α : Type} (h : Heap α) (s : GoSlice) (hl : s.len = 0) :
    h.read s = [] := by
  simp [Heap.read, hl]

theorem Heap.read_write_ne {α : Type} (h : Heap α) (a : Nat) (l : List α) (s : GoSlice)
    (hne : s.arr ≠ a) : (h.write a l).read s = h.read s := by
  simp [Heap.read, Heap.write, hne]

theorem Heap.read_alloc_ne {α : Type} (h : Heap α) (xs : List α) (s : GoSlice)
    (hne : s.arr ≠ h.next) : (h.alloc xs).1.read s = h.read s := by
  simp [Heap.read, Heap.alloc, hne]

theorem Heap.read_eq_of_store_eq {α : Type} (h h2 : Heap α) (s : GoSlice)
    (hst : h2.store s.arr = h.store s.arr) : h2.read s = h.read s := by
  simp [Heap.read, hst]

theorem goCopy_store_self {α : Type} (h : Heap α) (dst src : GoSlice) :
    (goCopy h dst src).store dst.arr
      = writeRange (h.store dst.arr) dst.off ((h.read src).take dst.len) := by
  simp [goCopy, Heap.write]

theorem goCopy_store_ne {α : Type} (h : Heap α) (dst src : GoSlice) (a : Nat)
    (hne : a ≠ dst.arr) : (goCopy h dst src).store a = h.store a := by
  simp [goCopy, Heap.write, hne]

theorem goCopy_next {α : Type} (h : Heap α) (dst src : GoSlice) :
    (goCopy h dst src).next = h.next := rfl

theorem goAppend_store_frame {α : Type} (h : Heap α) (s : GoSlice) (ys : List α) (a : Nat)
    (h1 : a ≠ s.arr) (h2 : a ≠ h.next) : (goAppend h s ys).1.store a = h.store a := by
  rw [goAppend]
  split
  · simp [Heap.write, h1]
  · simp [Heap.alloc, h2]

theorem goAppend_nil_pos {α : Type} (h : Heap α) (ys : List α) (hpos : ys ≠ []) :
    goAppend h nilSlice ys = ((h.alloc ys).1, ⟨h.next, 0, ys.length, ys.length⟩) := by
  rw [goAppend]
  rw [if_neg (by simp [nilSlice]; exact hpos)]
  simp [nilSlice, Heap.alloc, Heap.read]

theorem appendMade_slice (h : Heap Constructor) (c : ChainG) (xs : GoSlice) :
    (appendMade h c xs).2
      = ⟨h.next, 0, c.constructors.len + xs.len, c.constructors.len + xs.len⟩ := rfl

theorem appendMade_next (h : Heap Constructor) (c : ChainG) (xs : GoSlice) :
    (appendMade h c xs).1.next = h.next + 1 := rfl

theorem appendMade_store_self (h : Heap Constructor) (c : ChainG) (xs : GoSlice) :
    (appendMade h c xs).1.store h.next
      = List.replicate (c.constructors.len + xs.len) default := by
  simp [appendMade, goMake, Heap.alloc]

theorem appendMade_store_ne (h : Heap Constructor) (c : ChainG) (xs : GoSlice) (a : Nat)
    (hne : a ≠ h.next) : (appendMade h c xs).1.store a = h.store a := by
  simp [appendMade, goMake, Heap.alloc, hne]

theorem appendCopied_next (h : Heap Constructor) (c : ChainG) (xs : GoSlice) :
    (appendCopied h c xs).next = h.next + 1 := rfl

theorem appendCopy1_store_ne (h : Heap Constructor) (c : ChainG) (xs : GoSlice) (a : Nat)
    (hne : a ≠ h.next) : (appendCopy1 h c xs).store a = h.store a := by
  rw [appendCopy1]
  rw [goCopy_store_ne _ _ _ _ (by simpa [appendMade_slice] using hne)]
  exact appendMade_store_ne h c xs a hne

theorem appendCopied_store_ne (h : Heap Constructor) (c : ChainG) (xs : GoSlice) (a : Nat)
    (hne : a ≠ h.next) : (appendCopied h c xs).store a = h.store a := by
  rw [appendCopied]
  rw [goCopy_store_ne _ _ _ _ (by simpa [GoSlice.sliceFrom, appendMade_slice] using hne)]
  exact appendCopy1_store_ne h c xs a hne

theorem goCopy_lit_store {α : Type} (h : Heap α) (a off len cap : Nat) (src : GoSlice) :
    (goCopy h ⟨a, off, len, cap⟩ src).store a
      = writeRange (h.store a) off ((h.read src).take len) := by
  simp [goCopy, Heap.write]

theorem Heap.write_self_store {α : Type} (h : Heap α) (a b : Nat) :
    (h.write a (h.store a)).store b = h.store b := by
  simp only [Heap.write]
  split
  next hba => rw [hba]
  next => rfl

theorem drop_append_eq {α : Type} (l1 l2 : List α) (k : Nat) (hk : l1.length = k) :
    (l1 ++ l2).drop k = l2 := by
  subst hk
  exact List.drop_left l1 l2

theorem drop_all_eq {α : Type} (l : List α) (k : Nat) (hk : l.length = k) : l.drop k = [] := by
  subst hk
  exact List.drop_length l

theorem appendCopy1_store_self (h : Heap Constructor) (c : ChainG) (xs : GoSlice)
    (hc : h.validS c.constructors) :
    (appendCopy1 h c xs).store h.next
      = writeRange (List.replicate (c.constructors.len + xs.len) default) 0
          ((h.read c.constructors).take (c.constructors.len + xs.len)) := by
  have hcarr : c.constructors.arr ≠ h.next := Nat.ne_of_lt hc.1
  have hrd : (appendMade h c xs).1.read c.constructors = h.read c.constructors :=
    Heap.read_eq_of_store_eq _ _ _ (appendMade_store_ne h c xs _ hcarr)
  rw [appendCopy1]
  simp only [appendMade_slice]
  rw [goCopy_lit_store]
  rw [appendMade_store_self, hrd]

theorem appendCopied_store_self (h : Heap Constructor) (c : ChainG) (xs : GoSlice)
    (hc : h.validS c.constructors) (hx : h.validS xs) :
    (appendCopied h c xs).store h.next = h.read c.constructors ++ h.read xs := by
  have hcarr : c.constructors.arr ≠ h.next := Nat.ne_of_lt hc.1
  have hxarr : xs.arr ≠ h.next := Nat.ne_of_lt hx.1
  have hlen_as : (h.read c.constructors).length = c.constructors.len := Heap.read_len h _ hc
  have hlen_bs : (h.read xs).length = xs.len := Heap.read_len h _ hx
  have hrdxs : (appendCopy1 h c xs).read xs = h.read xs :=
    Heap.read_eq_of_store_eq _ _ _ (appendCopy1_store_ne h c xs _ hxarr)
  rw [appendCopied]
  simp only [appendMade_slice, GoSlice.sliceFrom]
  rw [goCopy_lit_store]
  rw [appendCopy1_store_self h c xs hc]
  rw [hrdxs]
  rw [List.take_of_length_le (by omega : (h.read c.constructors).length
        ≤ c.constructors.len + xs.len)]
  have e1 : writeRange (List.replicate (c.constructors.len + xs.len) (default : Constructor))
        0 (h.read c.constructors)
      = h.read c.constructors
        ++ (List.replicate (c.constructors.len + xs.len) (default : Constructor)).drop
             (h.read c.constructors).length := by
    have e := writeRange_append (h.read c.constructors) []
      (List.replicate (c.constructors.len + xs.len) default)
      (by rw [hlen_as, List.length_replicate]; omega)
    simpa using e
  rw [e1, hlen_as]
  have e2 : (List.replicate (c.constructors.len + xs.len) (default : Constructor)).drop
        c.constructors.len = List.replicate xs.len (default : Constructor) := by
    rw [List.replicate_add]
    exact drop_append_eq _ _ _ (List.length_replicate _ _)
  rw [e2]
  rw [Nat.zero_add, Nat.add_sub_cancel_left]
  rw [List.take_of_length_le (le_of_eq hlen_bs)]
  have e3 := writeRange_append (h.read xs) (h.read c.constructors)
    (List.replicate xs.len (default : Constructor))
    (by rw [hlen_bs, List.length_replicate])
  rw [hlen_as] at e3
  rw [e3]
  rw [drop_all_eq _ _ (by rw [List.length_replicate, hlen_bs])]
  simp

theorem newGo_zero (h : Heap Constructor) (s : GoSlice) (h0 : h.read s = []) :
    (newGo h s).2.constructors = nilSlice
    ∧ (∀ a, (newGo h s).1.store a = h.store a)
    ∧ (newGo h s).1.next = h.next := by
  have e : goAppend h nilSlice (h.read s) = (h.write 0 (h.store 0), nilSlice) := by
    rw [h0]; rfl
  unfold newGo
  rw [e]
  exact ⟨rfl, fun a => Heap.write_self_store h 0 a, rfl⟩

theorem newGo_pos (h : Heap Constructor) (s : GoSlice) (hpos : h.read s ≠ []) :
    newGo h s = ((h.alloc (h.read s)).1,
      ⟨⟨h.next, 0, (h.read s).length, (h.read s).length⟩, createRootHandler⟩) := by
  unfold newGo
  rw [goAppend_nil_pos h (h.read s) hpos]

theorem appendCopied_read_made (h : Heap Constructor) (c : ChainG) (xs : GoSlice)
    (hc : h.validS c.constructors) (hx : h.validS xs) :
    (appendCopied h c xs).read (appendMade h c xs).2
      = h.read c.constructors ++ h.read xs := by
  have hlen_as : (h.read c.constructors).length = c.constructors.len := Heap.read_len h _ hc
  have hlen_bs : (h.read xs).length = xs.len := Heap.read_len h _ hx
  simp only [appendMade_slice, Heap.read]
  rw [show Heap.store (appendCopied h c xs) h.next = h.read c.constructors ++ h.read xs
    from appendCopied_store_self h c xs hc hx]
  rw [List.drop_zero]
  exact List.take_of_length_le (by simp [hlen_as, hlen_bs])

theorem Heap.read_lit {α : Type} (h : Heap α) (a off len cap : Nat) :
    h.read ⟨a, off, len, cap⟩ = ((h.store a).drop off).take len := rfl

theorem Heap.alloc_store_self {α : Type} (h : Heap α) (xs : List α) :
    (h.alloc xs).1.store h.next = xs := by
  simp [Heap.alloc]

theorem appendGo_slice (h : Heap Constructor) (c : ChainG) (xs : GoSlice)
    (hc : h.validS c.constructors) (hx : h.validS xs) :
    (appendGo h c xs).2.constructors
      = if c.constructors.len + xs.len = 0 then nilSlice
        else ⟨h.next + 1, 0, c.constructors.len + xs.len,
              c.constructors.len + xs.len⟩ := by
  have hkey := appendCopied_read_made h c xs hc hx
  have hlen_as : (h.read c.constructors).length = c.constructors.len := Heap.read_len h _ hc
  have hlen_bs : (h.read xs).length = xs.len := Heap.read_len h _ hx
  unfold appendGo
  by_cases h0 : c.constructors.len + xs.len = 0
  · rw [if_pos h0]
    have hz : (appendCopied h c xs).read (appendMade h c xs).2 = [] := by
      rw [hkey]
      have : (h.read c.constructors ++ h.read xs).length = 0 := by
        simp [hlen_as, hlen_bs]; omega
      exact List.eq_nil_of_length_eq_zero this
    exact (newGo_zero _ _ hz).1
  · rw [if_neg h0]
    have hnz : (appendCopied h c xs).read (appendMade h c xs).2 ≠ [] := by
      rw [hkey]
      intro hnil
      apply h0
      have := congrArg List.length hnil
      simpa [hlen_as, hlen_bs] using this
    rw [newGo_pos _ _ hnz]
    simp [hkey, appendCopied_next, hlen_as, hlen_bs]

theorem appendGo_read_new (h : Heap Constructor) (c : ChainG) (xs : GoSlice)
    (hc : h.validS c.constructors) (hx : h.validS xs) :
    (appendGo h c xs).1.read (appendGo h c xs).2.constructors
      = h.read c.constructors ++ h.read xs := by
  have hkey := appendCopied_read_made h c xs hc hx
  unfold appendGo
  by_cases h0 : (appendCopied h c xs).read (appendMade h c xs).2 = []
  · obtain ⟨e1, _, _⟩ := newGo_zero _ _ h0
    rw [e1]
    rw [← hkey, h0]
    exact Heap.read_len_zero _ _ rfl
  · rw [newGo_pos _ _ h0]
    show (Heap.alloc (appendCopied h c xs)
        ((appendCopied h c xs).read (appendMade h c xs).2)).1.read
        ⟨(appendCopied h c xs).next, 0,
         ((appendCopied h c xs).read (appendMade h c xs).2).length,
         ((appendCopied h c xs).read (appendMade h c xs).2).length⟩
      = h.read c.constructors ++ h.read xs
    rw [Heap.read_lit]
    rw [Heap.alloc_store_self (appendCopied h c xs)
      ((appendCopied h c xs).read (appendMade h c xs).2)]
    rw [List.drop_zero, List.take_length, hkey]

theorem appendGo_next_pos (h : Heap Constructor) (c : ChainG) (xs : GoSlice)
    (hc : h.validS c.constructors) (hx : h.validS xs)
    (hpos : 0 < c.constructors.len + xs.len) :
    (appendGo h c xs).1.next = h.next + 2
    ∧ (appendGo h c xs).2.constructors.arr = h.next + 1 := by
  have hkey := appendCopied_read_made h c xs hc hx
  have hlen_as : (h.read c.constructors).length = c.constructors.len := Heap.read_len h _ hc
  have hlen_bs : (h.read xs).length = xs.len := Heap.read_len h _ hx
  have hnz : (appendCopied h c xs).read (appendMade h c xs).2 ≠ [] := by
    rw [hkey]
    intro hnil
    have := congrArg List.length hnil
    simp [hlen_as, hlen_bs] at this
    omega
  unfold appendGo
  rw [newGo_pos _ _ hnz]
  constructor
  · show (Heap.alloc _ _).1.next = h.next + 2
    simp [Heap.alloc, appendCopied_next]
  · show (appendCopied h c xs).next = h.next + 1
    exact appendCopied_next h c xs

theorem appendGo_store_frame (h : Heap Constructor) (c : ChainG) (xs : GoSlice) (a : Nat)
    (ha1 : a ≠ h.next) (ha2 : a ≠ h.next + 1) :
    (appendGo h c xs).1.store a = h.store a := by
  unfold appendGo
  by_cases h0 : (appendCopied h c xs).read (appendMade h c xs).2 = []
  · obtain ⟨_, e2, _⟩ := newGo_zero _ _ h0
    rw [e2 a]
    exact appendCopied_store_ne h c xs a ha1
  · rw [newGo_pos _ _ h0]
    have hne : a ≠ (appendCopied h c xs).next := by
      rw [appendCopied_next]; exact ha2
    show (Heap.alloc _ _).1.store a = h.store a
    simp only [Heap.alloc]
    rw [if_neg hne]
    exact appendCopied_store_ne h c xs a ha1

/-- C4: `Append` returns a chain whose constructor sequence is exactly the
receiver's sequence followed by the new constructors (at the value level
and in the heap), held in freshly allocated backing storage (an array id
at or above the allocation frontier, or the storage-free nil slice), with
the receiver's backing array untouched, and such that overwriting the new
chain's backing array never changes the original chain's sequence. -/
theorem Append_fresh_copy (h : Heap Constructor) (c : ChainG) (xs : GoSlice)
    (cA : Chain) (ls : List Constructor)
    (hc : h.validS c.constructors) (hx : h.validS xs) (h0 : h.store 0 = []) :
    (Chain.Append cA ls).constructors = cA.constructors ++ ls
    ∧ (appendGo h c xs).1.read (appendGo h c xs).2.constructors
        = h.read c.constructors ++ h.read xs
    ∧ (h.next ≤ (appendGo h c xs).2.constructors.arr
        ∨ (appendGo h c xs).2.constructors = nilSlice)
    ∧ (appendGo h c xs).1.store c.constructors.arr = h.store c.constructors.arr
    ∧ (∀ l : List Constructor,
        ((appendGo h c xs).1.write (appendGo h c xs).2.constructors.arr l).read
            c.constructors
          = (appendGo h c xs).1.read c.constructors) := by
  have hlt := hc.1
  refine ⟨rfl, appendGo_read_new h c xs hc hx, ?_, ?_, ?_⟩
  · rw [appendGo_slice h c xs hc hx]
    split
    · right; rfl
    · left
      show h.next ≤ h.next + 1
      omega
  · exact appendGo_store_frame h c xs _ (Nat.ne_of_lt hlt) (by omega)
  · intro l
    rw [appendGo_slice h c xs hc hx]
    split
    · by_cases hca : c.constructors.arr = 0
      · have hclen : c.constructors.len = 0 := by
          have h2 := hc.2.1
          have h3 := hc.2.2
          rw [hca, h0] at h2
          simp at h2
          omega
        rw [Heap.read_len_zero _ _ hclen, Heap.read_len_zero _ _ hclen]
      · exact Heap.read_write_ne _ _ _ _ hca
    · exact Heap.read_write_ne _ _ _ _
        (by show c.constructors.arr ≠ h.next + 1; omega)

theorem Append_fresh_copy_witness :
    Heap.validS (⟨1, fun _ => []⟩ : Heap Constructor) nilSlice
    ∧ Heap.store (⟨1, fun _ => []⟩ : Heap Constructor) 0 = []
    ∧ (appendGo ⟨1, fun _ => []⟩ ⟨nilSlice, createRootHandler⟩ nilSlice).1.read
          (appendGo ⟨1, fun _ => []⟩ ⟨nilSlice, createRootHandler⟩
            nilSlice).2.constructors
        = Heap.read (⟨1, fun _ => []⟩ : Heap Constructor) nilSlice
          ++ Heap.read (⟨1, fun _ => []⟩ : Heap Constructor) nilSlice :=
  ⟨⟨by decide, by decide, by decide⟩, rfl,
   (Append_fresh_copy ⟨1, fun _ => []⟩ ⟨nilSlice, createRootHandler⟩ nilSlice (New []) []
      ⟨by decide, by decide, by decide⟩ ⟨by decide, by decide, by decide⟩ rfl).2.1⟩

/-- C5: `Append` of a single constructor never mutates the receiver: the
receiver's sequence still reads back unchanged (count and contents) while
the new chain's slice has length one more, and the two chains' backing
storage is independently mutable — a later `append` performed on either
chain's slice leaves the other chain's sequence unchanged. -/
theorem Append_no_aliasing (h : Heap Constructor) (c : ChainG) (xs : GoSlice)
    (hc : h.validS c.constructors) (hx : h.validS xs) (hone : xs.len = 1) :
    (appendGo h c xs).2.constructors.len = c.constructors.len + 1
    ∧ (appendGo h c xs).1.read c.constructors = h.read c.constructors
    ∧ (∀ ys : List Constructor,
        (goAppend (appendGo h c xs).1 (appendGo h c xs).2.constructors ys).1.read
            c.constructors
          = (appendGo h c xs).1.read c.constructors)
    ∧ (∀ ys : List Constructor,
        (goAppend (appendGo h c xs).1 c.constructors ys).1.read
            (appendGo h c xs).2.constructors
          = (appendGo h c xs).1.read (appendGo h c xs).2.constructors) := by
  have hlt := hc.1
  have hpos : 0 < c.constructors.len + xs.len := by omega
  have hno : ¬ c.constructors.len + xs.len = 0 := by omega
  have hslice := appendGo_slice h c xs hc hx
  rw [if_neg hno] at hslice
  have hnext := (appendGo_next_pos h c xs hc hx hpos).1
  have harr : (appendGo h c xs).2.constructors.arr = h.next + 1 := by rw [hslice]
  refine ⟨?_, ?_, ?_, ?_⟩
  · rw [hslice]
    show c.constructors.len + xs.len = c.constructors.len + 1
    omega
  · exact Heap.read_eq_of_store_eq _ _ _
      (appendGo_store_frame h c xs _ (Nat.ne_of_lt hlt) (by omega))
  · intro ys
    refine Heap.read_eq_of_store_eq _ _ _ (goAppend_store_frame _ _ _ _ ?_ ?_)
    · rw [harr]; omega
    · rw [hnext]; omega
  · intro ys
    refine Heap.read_eq_of_store_eq _ _ _ (goAppend_store_frame _ _ _ _ ?_ ?_)
    · rw [harr]; omega
    · rw [harr, hnext]; omega

theorem Append_no_aliasing_witness :
    Heap.validS (⟨2, fun i => if i = 1 then [fun hh => hh] else []⟩ : Heap Constructor)
      nilSlice
    ∧ Heap.validS (⟨2, fun i => if i = 1 then [fun hh => hh] else []⟩ : Heap Constructor)
        ⟨1, 0, 1, 1⟩
    ∧ (⟨1, 0, 1, 1⟩ : GoSlice).len = 1
    ∧ (appendGo ⟨2, fun i => if i = 1 then [fun hh => hh] else []⟩
          ⟨nilSlice, createRootHandler⟩ ⟨1, 0, 1, 1⟩).2.constructors.len
        = (⟨nilSlice, createRootHandler⟩ : ChainG).constructors.len + 1 :=
  ⟨⟨by decide, by decide, by decide⟩, ⟨by decide, by decide, by decide⟩, rfl,
   (Append_no_aliasing ⟨2, fun i => if i = 1 then [fun hh => hh] else []⟩
      ⟨nilSlice, createRootHandler⟩ ⟨1, 0, 1, 1⟩
      ⟨by decide, by decide, by decide⟩ ⟨by decide, by decide, by decide⟩ rfl).1⟩

/-- C6: `New` is valid on every input including the empty list: a chain
built by `New []` composes any terminal handler by applying the finalizer
directly; `New` keeps exactly the given constructor list; and at the
memory level the chain's sequence is an independent copy of the caller's
slice — overwriting the caller's backing array never changes what the
chain's sequence reads back as. -/
theorem New_independent_copy (h : Heap Constructor) (s : GoSlice) (hs : h.validS s) :
    (∀ hd : Handler, (New []).Then (some hd) = createRootHandler hd)
    ∧ (∀ cs : List Constructor, (New cs).constructors = cs)
    ∧ (newGo h s).1.read (newGo h s).2.constructors = h.read s
    ∧ (∀ l : List Constructor,
        ((newGo h s).1.write s.arr l).read (newGo h s).2.constructors
          = (newGo h s).1.read (newGo h s).2.constructors) := by
  have hlt := hs.1
  refine ⟨fun hd => rfl, fun cs => rfl, ?_, ?_⟩
  · by_cases h0 : h.read s = []
    · obtain ⟨e1, _, _⟩ := newGo_zero h s h0
      rw [e1, h0]
      exact Heap.read_len_zero _ _ rfl
    · rw [newGo_pos h s h0]
      show (Heap.alloc h (h.read s)).1.read ⟨h.next, 0, (h.read s).length,
        (h.read s).length⟩ = h.read s
      rw [Heap.read_lit, Heap.alloc_store_self, List.drop_zero, List.take_length]
  · intro l
    by_cases h0 : h.read s = []
    · obtain ⟨e1, _, _⟩ := newGo_zero h s h0
      rw [e1]
      rw [Heap.read_len_zero _ _ rfl, Heap.read_len_zero _ _ rfl]
    · rw [newGo_pos h s h0]
      exact Heap.read_write_ne _ _ _ _ (by show h.next ≠ s.arr; omega)

theorem New_independent_copy_witness :
    Heap.validS (⟨2, fun i => if i = 1 then [fun hh => hh] else []⟩ : Heap Constructor)
      ⟨1, 0, 1, 1⟩
    ∧ (newGo ⟨2, fun i => if i = 1 then [fun hh => hh] else []⟩ ⟨1, 0, 1, 1⟩).1.read
        (newGo ⟨2, fun i => if i = 1 then [fun hh => hh] else []⟩
          ⟨1, 0, 1, 1⟩).2.constructors
      = Heap.read (⟨2, fun i => if i = 1 then [fun hh => hh] else []⟩ : Heap Constructor)
          ⟨1, 0, 1, 1⟩ :=
  ⟨⟨by decide, by decide, by decide⟩,
   (New_independent_copy ⟨2, fun i => if i = 1 then [fun hh => hh] else []⟩ ⟨1, 0, 1, 1⟩
      ⟨by decide, by decide, by decide⟩).2.2.1⟩

/-- C10: `Append` with zero additional constructors is an identity up to
storage: the resulting chain holds the same constructor sequence (same
length, same elements, same order), in freshly allocated storage (or the
storage-free nil slice), and its `Then` behaves identically to the
receiver's `Then` on every terminal handler. -/
theorem Append_empty_identity (h : Heap Constructor) (c : ChainG) (cA : Chain)
    (hc : h.validS c.constructors) (hfin : cA.finalize = createRootHandler) :
    (Chain.Append cA []).constructors = cA.constructors
    ∧ (∀ hh : Option Handler, (Chain.Append cA []).Then hh = cA.Then hh)
    ∧ (appendGo h c nilSlice).1.read (appendGo h c nilSlice).2.constructors
        = h.read c.constructors
    ∧ (h.next ≤ (appendGo h c nilSlice).2.constructors.arr
        ∨ (appendGo h c nilSlice).2.constructors = nilSlice) := by
  have hlt := hc.1
  have hnil : h.validS nilSlice :=
    ⟨Nat.lt_of_le_of_lt (Nat.zero_le _) hlt, by simp [nilSlice], by simp [nilSlice]⟩
  refine ⟨by simp [Chain.Append, New], ?_, ?_, ?_⟩
  · intro hh
    show (New (cA.constructors ++ [])).Then hh = cA.Then hh
    simp only [Chain.Then, New, List.append_nil, hfin]
  · rw [appendGo_read_new h c nilSlice hc hnil]
    simp [Heap.read, nilSlice]
  · rw [appendGo_slice h c nilSlice hc hnil]
    split
    · right; rfl
    · left
      show h.next ≤ h.next + 1
      omega

theorem Append_empty_identity_witness :
    Heap.validS (⟨1, fun _ => []⟩ : Heap Constructor) nilSlice
    ∧ (New []).finalize = createRootHandler
    ∧ (appendGo ⟨1, fun _ => []⟩ ⟨nilSlice, createRootHandler⟩ nilSlice).1.read
        (appendGo ⟨1, fun _ => []⟩ ⟨nilSlice, createRootHandler⟩
          nilSlice).2.constructors
      = Heap.read (⟨1, fun _ => []⟩ : Heap Constructor) nilSlice :=
  ⟨⟨by decide, by decide, by decide⟩, rfl,
   (Append_empty_identity ⟨1, fun _ => []⟩ ⟨nilSlice, createRootHandler⟩ (New [])
      ⟨by decide, by decide, by decide⟩ rfl).2.2.1⟩
